import Mathlib

/-!
Shallow embedding of `packages/wasm-occlusion/src/lib.rs`.

The module exposes two C-ABI functions over its linear memory:

* `alloc(size) -> *mut u8` — grows the heap and returns a fresh region
  (spec name: `reserve`);
* `alpha_composite_inplace(ptr_target_rgba, ptr_occluder_rgba, len)` —
  null guard, then a `while i < len` loop from `i = 3` stepping by 4 that
  rewrites each target alpha byte to `((ta * (255 - oa)) / 255) as u8`
  computed in `u16`.

Linear memory is modelled as a total byte store `Nat → Nat`; a
well-formed store holds `u8` values (`< 256`), carried as hypotheses
where the arithmetic needs them.  The null pointer is address `0`.
-/

/-- The module linear memory: one byte per address. -/
abbrev Mem : Type := Nat → Nat

/-- Store one byte at address `a`: the slice write `buf[a] = v`. -/
def Mem.write (m : Mem) (a v : Nat) : Mem :=
  fun x => if x = a then v else m x

/-- The per-byte blend of lib.rs lines 20–22: `ta` and `oa` are widened
`as u16`, the product `ta * (255 - oa)` is `u16` arithmetic (wrapping at
`2^16`), the quotient is truncating division, and the store re-narrows
`as u8` (mod `2^8`). -/
def blendAlpha (ta oa : Nat) : Nat :=
  ta * (255 - oa) % 65536 / 255 % 256

/-- The `while i < len` loop of `alpha_composite_inplace` (lib.rs lines
18–24): read `target_rgba[i]` and `occluder_rgba[i]` (bytes at addresses
`pt + i` and `po + i`), write the blend back to `target_rgba[i]`, and
step `i` by 4. -/
def compositeLoop (m : Mem) (pt po len i : Nat) : Mem :=
  if h : i < len then
    compositeLoop (m.write (pt + i) (blendAlpha (m (pt + i)) (m (po + i))))
      pt po len (i + 4)
  else m
termination_by len - i
decreasing_by omega

/-- `alpha_composite_inplace` (lib.rs lines 10–25): if either pointer is
null the call returns at once; otherwise it runs the alpha loop starting
at byte offset 3. -/
def alpha_composite_inplace (m : Mem) (pt po len : Nat) : Mem :=
  if pt = 0 ∨ po = 0 then m
  else compositeLoop m pt po len 3

/-- The byte offsets the loop visits: `i = 3, 7, 11, …` while `i < len`.
Both buffer reads and the single buffer write of one iteration happen at
the iteration index, so this list is exactly the set of accessed
offsets. -/
def alphaIndices (len i : Nat) : List Nat :=
  if h : i < len then i :: alphaIndices len (i + 4) else []
termination_by len - i
decreasing_by omega

/-- Modelled from the spec: the Memory Arena backing `alloc`.  The Rust
body delegates to the global allocator (`Vec::with_capacity` plus
`mem::forget`), which is not part of this repository; the spec describes
it as an arena that "carves out `size` bytes of fresh memory inside the
module's own address space and returns its starting address", never
reclaiming.  The state is the next unreserved address. -/
structure Arena where
  next : Nat

/-- Modelled from the spec: `alloc` / `reserve(size) -> address` returns
the start of a fresh `size`-byte region and advances the arena past it. -/
def alloc (st : Arena) (size : Nat) : Nat × Arena :=
  (st.next, ⟨st.next + size⟩)

/-- Two half-open byte ranges `[a1, a1+n1)` and `[a2, a2+n2)` do not
overlap. -/
def rangesDisjoint (a1 n1 a2 n2 : Nat) : Prop :=
  a1 + n1 ≤ a2 ∨ a2 + n2 ≤ a1

/-! ### Helper lemmas -/

theorem compositeLoop_step (m : Mem) (pt po len i : Nat) (h : i < len) :
    compositeLoop m pt po len i =
      compositeLoop (m.write (pt + i) (blendAlpha (m (pt + i)) (m (po + i))))
        pt po len (i + 4) := by
  rw [compositeLoop, dif_pos h]

theorem compositeLoop_stop (m : Mem) (pt po len i : Nat) (h : ¬ i < len) :
    compositeLoop m pt po len i = m := by
  rw [compositeLoop, dif_neg h]

theorem Mem.write_self (m : Mem) (a : Nat) : m.write a (m a) = m := by
  funext x
  unfold Mem.write
  by_cases h : x = a
  · simp [h]
  · simp [h]

theorem Mem.write_apply (m : Mem) (a v x : Nat) :
    m.write a v x = if x = a then v else m x := rfl

theorem blendAlpha_le (ta oa : Nat) : blendAlpha ta oa ≤ ta := by
  unfold blendAlpha
  calc ta * (255 - oa) % 65536 / 255 % 256
      ≤ ta * (255 - oa) % 65536 / 255 := Nat.mod_le _ _
    _ ≤ ta * (255 - oa) / 255 := Nat.div_le_div_right (Nat.mod_le _ _)
    _ ≤ ta * 255 / 255 :=
        Nat.div_le_div_right (Nat.mul_le_mul_left ta (Nat.sub_le 255 oa))
    _ = ta := by omega

theorem blendAlpha_eq (ta oa : Nat) (hta : ta < 256) (hoa : oa < 256) :
    blendAlpha ta oa = ta * (255 - oa) / 255 := by
  unfold blendAlpha
  have hmul : ta * (255 - oa) ≤ 255 * 255 :=
    Nat.mul_le_mul (by omega) (by omega)
  have h1 : ta * (255 - oa) % 65536 = ta * (255 - oa) :=
    Nat.mod_eq_of_lt (by omega)
  rw [h1]
  have h2 : ta * (255 - oa) / 255 ≤ 255 := by
    have := Nat.div_le_div_right (c := 255) hmul
    simpa using this
  exact Nat.mod_eq_of_lt (by omega)

theorem blendAlpha_zero (ta : Nat) (hta : ta < 256) :
    blendAlpha ta 0 = ta := by
  rw [blendAlpha_eq ta 0 hta (by omega)]
  simp

theorem alphaIndices_mem (len : Nat) :
    ∀ n i j, len - i ≤ n → j ∈ alphaIndices len i →
      i ≤ j ∧ j < len ∧ j % 4 = i % 4 := by
  intro n
  induction n with
  | zero =>
    intro i j hn hj
    rw [alphaIndices, dif_neg (by omega)] at hj
    exact absurd hj (List.not_mem_nil j)
  | succ n ih =>
    intro i j hn hj
    by_cases h : i < len
    · rw [alphaIndices, dif_pos h] at hj
      rcases List.mem_cons.mp hj with hj | hj
      · omega
      · have := ih (i + 4) j (by omega) hj
        omega
    · rw [alphaIndices, dif_neg h] at hj
      exact absurd hj (List.not_mem_nil j)

theorem alphaIndices_mem_of (len : Nat) :
    ∀ n i j, len - i ≤ n → i ≤ j → j < len → j % 4 = i % 4 →
      j ∈ alphaIndices len i := by
  intro n
  induction n with
  | zero =>
    intro i j hn hij hj hmod
    omega
  | succ n ih =>
    intro i j hn hij hj hmod
    have h : i < len := by omega
    rw [alphaIndices, dif_pos h]
    rcases Nat.eq_or_lt_of_le hij with heq | hlt
    · exact heq ▸ List.mem_cons_self i _
    · have hij4 : i + 4 ≤ j := by omega
      exact List.mem_cons_of_mem i (ih (i + 4) j (by omega) hij4 hj (by omega))

/-- Positions the loop never writes keep their byte: each iteration only
stores at `pt + i` for a visited offset `i`. -/
theorem compositeLoop_frame (pt po len : Nat) :
    ∀ n i m x, len - i ≤ n → (∀ j ∈ alphaIndices len i, x ≠ pt + j) →
      compositeLoop m pt po len i x = m x := by
  intro n
  induction n with
  | zero =>
    intro i m x hn hx
    rw [compositeLoop, dif_neg (by omega)]
  | succ n ih =>
    intro i m x hn hx
    by_cases h : i < len
    · rw [compositeLoop, dif_pos h]
      have hmem : ∀ j ∈ alphaIndices len (i + 4), x ≠ pt + j := by
        intro j hj
        exact hx j (by rw [alphaIndices, dif_pos h]; exact List.mem_cons_of_mem i hj)
      rw [ih (i + 4) _ x (by omega) hmem]
      have hxi : x ≠ pt + i :=
        hx i (by rw [alphaIndices, dif_pos h]; exact List.mem_cons_self i _)
      rw [Mem.write_apply, if_neg hxi]
    · rw [compositeLoop, dif_neg h]

/-- On disjoint buffers, the byte the loop leaves at a visited target
offset `k` is the blend of the two bytes that were there before the
loop started. -/
theorem compositeLoop_value (pt po len : Nat)
    (hd : pt + len ≤ po ∨ po + len ≤ pt) :
    ∀ n i m k, len - i ≤ n → i ≤ k → k < len → k % 4 = i % 4 →
      compositeLoop m pt po len i (pt + k) =
        blendAlpha (m (pt + k)) (m (po + k)) := by
  intro n
  induction n with
  | zero =>
    intro i m k hn hik hk hmod
    omega
  | succ n ih =>
    intro i m k hn hik hk hmod
    have h : i < len := by omega
    rw [compositeLoop, dif_pos h]
    rcases Nat.eq_or_lt_of_le hik with heq | hlt
    · subst heq
      have hframe : ∀ j ∈ alphaIndices len (i + 4), pt + i ≠ pt + j := by
        intro j hj
        have := alphaIndices_mem len (len - (i + 4)) (i + 4) j (by omega) hj
        omega
      rw [compositeLoop_frame pt po len (len - (i + 4)) (i + 4) _ _ (by omega) hframe]
      rw [Mem.write_apply, if_pos rfl]
    · have hik4 : i + 4 ≤ k := by omega
      rw [ih (i + 4) _ k (by omega) hik4 hk (by omega)]
      have h1 : pt + k ≠ pt + i := by omega
      have h2 : po + k ≠ pt + i := by omega
      rw [Mem.write_apply, if_neg h1, Mem.write_apply, if_neg h2]

/-- When every occluder byte the loop reads is 0 and every target byte
it reads is a `u8`, each write stores back the byte already there, so
the loop is the identity on memory. -/
theorem compositeLoop_id (pt po len : Nat) :
    ∀ n i m, len - i ≤ n →
      (∀ j, i ≤ j → j < len → j % 4 = i % 4 →
        m (pt + j) < 256 ∧ m (po + j) = 0) →
      compositeLoop m pt po len i = m := by
  intro n
  induction n with
  | zero =>
    intro i m hn hm
    rw [compositeLoop, dif_neg (by omega)]
  | succ n ih =>
    intro i m hn hm
    by_cases h : i < len
    · rw [compositeLoop, dif_pos h]
      have hi := hm i (Nat.le_refl i) h rfl
      rw [hi.2, blendAlpha_zero _ hi.1, Mem.write_self]
      apply ih (i + 4) m (by omega)
      intro j hij hj hmod
      exact hm j (by omega) hj (by omega)
    · rw [compositeLoop, dif_neg h]

/-- The loop reads only the target and occluder bytes at visited
offsets: two memories that agree there evolve identically wherever they
agreed before. -/
theorem compositeLoop_reads (pt po len : Nat) :
    ∀ n i m1 m2, len - i ≤ n →
      (∀ j ∈ alphaIndices len i, m1 (pt + j) = m2 (pt + j) ∧
        m1 (po + j) = m2 (po + j)) →
      ∀ x, m1 x = m2 x →
        compositeLoop m1 pt po len i x = compositeLoop m2 pt po len i x := by
  intro n
  induction n with
  | zero =>
    intro i m1 m2 hn hagree x hx
    rw [compositeLoop_stop m1 pt po len i (by omega),
      compositeLoop_stop m2 pt po len i (by omega)]
    exact hx
  | succ n ih =>
    intro i m1 m2 hn hagree x hx
    by_cases h : i < len
    · rw [compositeLoop_step m1 pt po len i h, compositeLoop_step m2 pt po len i h]
      have hihead : i ∈ alphaIndices len i := by
        rw [alphaIndices, dif_pos h]; exact List.mem_cons_self i _
      have hrd := hagree i hihead
      have hval : blendAlpha (m1 (pt + i)) (m1 (po + i)) =
          blendAlpha (m2 (pt + i)) (m2 (po + i)) := by rw [hrd.1, hrd.2]
      apply ih (i + 4) _ _ (by omega)
      · intro j hj
        have hjmem : j ∈ alphaIndices len i := by
          rw [alphaIndices, dif_pos h]; exact List.mem_cons_of_mem i hj
        have hj2 := hagree j hjmem
        constructor
        · rw [Mem.write_apply, Mem.write_apply, hval]
          by_cases hc : pt + j = pt + i
          · simp [hc]
          · rw [if_neg hc, if_neg hc]; exact hj2.1
        · rw [Mem.write_apply, Mem.write_apply, hval]
          by_cases hc : po + j = pt + i
          · simp [hc]
          · rw [if_neg hc, if_neg hc]; exact hj2.2
      · rw [Mem.write_apply, Mem.write_apply, hval]
        by_cases hc : x = pt + i
        · simp [hc]
        · rw [if_neg hc, if_neg hc]; exact hx
    · rw [compositeLoop_stop m1 pt po len i h, compositeLoop_stop m2 pt po len i h]
      exact hx

/-- Number of loop iterations: `|alphaIndices len i| = ⌈(len - i) / 4⌉`. -/
theorem alphaIndices_length (len : Nat) :
    ∀ n i, len - i ≤ n →
      (alphaIndices len i).length = (len - i + 3) / 4 := by
  intro n
  induction n with
  | zero =>
    intro i hn
    rw [alphaIndices, dif_neg (by omega)]
    simp
    omega
  | succ n ih =>
    intro i hn
    by_cases h : i < len
    · rw [alphaIndices, dif_pos h]
      rw [List.length_cons, ih (i + 4) (by omega)]
      omega
    · rw [alphaIndices, dif_neg h]
      simp
      omega

/-- With both pointers non-null the guard is not taken and the call is
exactly the alpha loop from offset 3. -/
theorem alpha_composite_nonnull (m : Mem) (pt po len : Nat)
    (hpt : pt ≠ 0) (hpo : po ≠ 0) :
    alpha_composite_inplace m pt po len = compositeLoop m pt po len 3 := by
  unfold alpha_composite_inplace
  rw [if_neg (by omega)]

/-! ### Claim theorems -/

/-- C1: for every byte offset `k` with `k % 4 = 3` and `k < len`, after
`alpha_composite_inplace` on non-null disjoint buffers the target byte at
`k` equals `⌊ta * (255 - oa) / 255⌋`, where `ta` and `oa` are the target
and occluder bytes at `k` before the call, both in `[0, 255]`; integer
multiply then truncating division, no other rounding, no clamping. -/
theorem composite_alpha_exact_formula (m : Mem) (pt po len k : Nat)
    (hpt : pt ≠ 0) (hpo : po ≠ 0)
    (hd : pt + len ≤ po ∨ po + len ≤ pt)
    (hk4 : k % 4 = 3) (hk : k < len)
    (hta : m (pt + k) < 256) (hoa : m (po + k) < 256) :
    alpha_composite_inplace m pt po len (pt + k) =
      m (pt + k) * (255 - m (po + k)) / 255 := by
  rw [alpha_composite_nonnull m pt po len hpt hpo,
    compositeLoop_value pt po len hd (len - 3) 3 m k (by omega) (by omega) hk
      (by omega)]
  exact blendAlpha_eq _ _ hta hoa

/-- Witness for C1: constant buffers `ta = 200`, `oa = 200`, so the
blended alpha is `200 * 55 / 255 = 43`. -/
theorem composite_alpha_exact_formula_witness :
    (4:Nat) ≠ 0 ∧ (100:Nat) ≠ 0 ∧ (4 + 8 ≤ 100 ∨ 100 + 8 ≤ 4) ∧
      3 % 4 = 3 ∧ 3 < 8 ∧ (200:Nat) < 256 ∧
      alpha_composite_inplace (fun _ => 200) 4 100 8 (4 + 3) = 43 :=
  ⟨by norm_num, by norm_num, by norm_num, by norm_num, by norm_num,
    by norm_num, by
      have h := composite_alpha_exact_formula (fun _ => 200) 4 100 8 3
        (by norm_num) (by norm_num) (Or.inl (by norm_num)) (by norm_num)
        (by norm_num) (by norm_num) (by norm_num)
      simpa using h⟩

/-- C2: on non-null disjoint equal-length buffers the call writes only
target bytes at offsets `≡ 3 (mod 4)` below `len`; every other byte of
memory — in particular every byte of the occluder buffer — is unchanged. -/
theorem composite_frame_effect (m : Mem) (pt po len : Nat)
    (hpt : pt ≠ 0) (hpo : po ≠ 0)
    (hd : pt + len ≤ po ∨ po + len ≤ pt) :
    (∀ x, (∀ j, j % 4 = 3 → j < len → x ≠ pt + j) →
      alpha_composite_inplace m pt po len x = m x) ∧
    (∀ j, j < len →
      alpha_composite_inplace m pt po len (po + j) = m (po + j)) := by
  rw [alpha_composite_nonnull m pt po len hpt hpo]
  constructor
  · intro x hx
    apply compositeLoop_frame pt po len (len - 3) 3 m x (by omega)
    intro j hj
    have h2 := alphaIndices_mem len (len - 3) 3 j (by omega) hj
    exact hx j (by omega) h2.2.1
  · intro j hj
    apply compositeLoop_frame pt po len (len - 3) 3 m _ (by omega)
    intro j2 hj2
    have h2 := alphaIndices_mem len (len - 3) 3 j2 (by omega) hj2
    omega

/-- Witness for C2: with disjoint buffers at 4 and 100 of length 8, byte
0 (outside both) and occluder byte 3 keep their values. -/
theorem composite_frame_effect_witness :
    (4:Nat) ≠ 0 ∧ (100:Nat) ≠ 0 ∧ (4 + 8 ≤ 100 ∨ 100 + 8 ≤ 4) ∧
      alpha_composite_inplace (fun a => a) 4 100 8 0 = 0 ∧
      alpha_composite_inplace (fun a => a) 4 100 8 (100 + 3) = 103 :=
  ⟨by norm_num, by norm_num, by norm_num,
    by
      have h := (composite_frame_effect (fun a => a) 4 100 8 (by norm_num)
        (by norm_num) (Or.inl (by norm_num))).1 0 (by intro j h1 h2; omega)
      simpa using h,
    by
      have h := (composite_frame_effect (fun a => a) 4 100 8 (by norm_num)
        (by norm_num) (Or.inl (by norm_num))).2 3 (by norm_num)
      simpa using h⟩

/-- C3: if either pointer is null the call is a complete no-op — it
returns (the embedding is total) and leaves every byte of memory
unchanged. -/
theorem composite_null_noop (m : Mem) (pt po len : Nat)
    (h : pt = 0 ∨ po = 0) :
    ∀ x, alpha_composite_inplace m pt po len x = m x := by
  intro x
  unfold alpha_composite_inplace
  rw [if_pos h]

/-- Witness for C3: a null target with `len = 100` changes nothing. -/
theorem composite_null_noop_witness :
    ((0:Nat) = 0 ∨ (5:Nat) = 0) ∧
      ∀ x, alpha_composite_inplace (fun a => a % 256) 0 5 100 x =
        (fun a => a % 256 : Mem) x :=
  ⟨Or.inl rfl, composite_null_noop (fun a => a % 256) 0 5 100 (Or.inl rfl)⟩

/-- C4: the loop touches exactly the offsets in `alphaIndices len 3`:
every such offset is `≡ 3 (mod 4)` and `< len` (so every access is in
bounds and none is at or past `len`), `len = 0` visits nothing,
`len = 6` visits only offset 3; writes land only at visited target
offsets, and the result depends only on the bytes at visited offsets. -/
theorem composite_access_safety (len : Nat) :
    (∀ j ∈ alphaIndices len 3, j % 4 = 3 ∧ j < len) ∧
    alphaIndices 0 3 = [] ∧
    alphaIndices 6 3 = [3] ∧
    (∀ m pt po x, (∀ j ∈ alphaIndices len 3, x ≠ pt + j) →
      compositeLoop m pt po len 3 x = m x) ∧
    (∀ m1 m2 pt po,
      (∀ j ∈ alphaIndices len 3, m1 (pt + j) = m2 (pt + j) ∧
        m1 (po + j) = m2 (po + j)) →
      ∀ x, m1 x = m2 x →
        compositeLoop m1 pt po len 3 x = compositeLoop m2 pt po len 3 x) := by
  refine ⟨?_, ?_, ?_, ?_, ?_⟩
  · intro j hj
    have h := alphaIndices_mem len (len - 3) 3 j (by omega) hj
    omega
  · rw [alphaIndices, dif_neg (by omega)]
  · rw [alphaIndices, dif_pos (by omega), alphaIndices, dif_neg (by omega)]
  · intro m pt po x hx
    exact compositeLoop_frame pt po len (len - 3) 3 m x (by omega) hx
  · intro m1 m2 pt po hagree x hx
    exact compositeLoop_reads pt po len (len - 3) 3 m1 m2 (by omega) hagree x hx

/-- Witness for C4: at `len = 6` the visited offsets are exactly `[3]`. -/
theorem composite_access_safety_witness : alphaIndices 6 3 = [3] :=
  (composite_access_safety 6).2.2.1

/-- C5: for `ta, oa ∈ [0, 255]` the intermediate product is at most
`65025 < 2^16` (no `u16` overflow), and the quotient is at most 255, so
the `as u8` re-narrowing is exact and `blendAlpha` is plain
`ta * (255 - oa) / 255`. -/
theorem blendAlpha_no_overflow (ta oa : Nat) (hta : ta < 256) (hoa : oa < 256) :
    ta * (255 - oa) ≤ 65025 ∧ 65025 < 65536 ∧
      blendAlpha ta oa = ta * (255 - oa) / 255 ∧ blendAlpha ta oa ≤ 255 := by
  have hmul : ta * (255 - oa) ≤ 255 * 255 := Nat.mul_le_mul (by omega) (by omega)
  refine ⟨by omega, by omega, blendAlpha_eq ta oa hta hoa, ?_⟩
  rw [blendAlpha_eq ta oa hta hoa]
  have h2 : ta * (255 - oa) / 255 ≤ 255 * 255 / 255 := Nat.div_le_div_right hmul
  omega

/-- Witness for C5 at `ta = 200`, `oa = 128` (spec scenario 3). -/
theorem blendAlpha_no_overflow_witness :
    (200:Nat) < 256 ∧ (128:Nat) < 256 ∧
      (200 * (255 - 128) ≤ 65025 ∧ 65025 < 65536 ∧
        blendAlpha 200 128 = 200 * (255 - 128) / 255 ∧ blendAlpha 200 128 ≤ 255) :=
  ⟨by norm_num, by norm_num,
    blendAlpha_no_overflow 200 128 (by norm_num) (by norm_num)⟩

/-- C6: if the occluder byte is 0 at every visited offset (a fully
transparent occluder) and the target bytes there are `u8` values, the
call leaves every byte of memory — the whole target included —
unchanged. -/
theorem composite_transparent_occluder_id (m : Mem) (pt po len : Nat)
    (hpt : pt ≠ 0) (hpo : po ≠ 0)
    (htgt : ∀ j, j % 4 = 3 → j < len → m (pt + j) < 256)
    (hocc : ∀ j, j % 4 = 3 → j < len → m (po + j) = 0) :
    ∀ x, alpha_composite_inplace m pt po len x = m x := by
  have hid : compositeLoop m pt po len 3 = m := by
    apply compositeLoop_id pt po len (len - 3) 3 m (by omega)
    intro j h3j hj hmod
    exact ⟨htgt j (by omega) hj, hocc j (by omega) hj⟩
  intro x
  rw [alpha_composite_nonnull m pt po len hpt hpo, hid]

/-- Witness for C6: target bytes 200 below address 40, occluder bytes 0
from address 40 on; nothing changes. -/
theorem composite_transparent_occluder_id_witness :
    (1:Nat) ≠ 0 ∧ (40:Nat) ≠ 0 ∧
      (∀ j, j % 4 = 3 → j < 8 →
        (fun x => if x < 40 then 200 else 0 : Mem) (1 + j) < 256) ∧
      (∀ j, j % 4 = 3 → j < 8 →
        (fun x => if x < 40 then 200 else 0 : Mem) (40 + j) = 0) ∧
      ∀ x, alpha_composite_inplace (fun x => if x < 40 then 200 else 0) 1 40 8 x =
        (fun x => if x < 40 then 200 else 0 : Mem) x :=
  ⟨by norm_num, by norm_num,
    by intro j h1 h2; dsimp only; split <;> norm_num,
    by intro j h1 h2; dsimp only; rw [if_neg (by omega)],
    composite_transparent_occluder_id (fun x => if x < 40 then 200 else 0) 1 40 8
      (by norm_num) (by norm_num)
      (by intro j h1 h2; dsimp only; split <;> norm_num)
      (by intro j h1 h2; dsimp only; rw [if_neg (by omega)])⟩

/-- C7: two sequential `alloc` calls of size `n` return regions
`[a1, a1+n)` and `[a2, a2+n)` that do not overlap; more generally the
new region is disjoint from every region that ends at or before the
arena's current frontier (every region handed out earlier). -/
theorem alloc_no_overlap (st : Arena) (n : Nat) :
    rangesDisjoint (alloc st n).1 n (alloc (alloc st n).2 n).1 n ∧
    ∀ b m, b + m ≤ st.next → rangesDisjoint b m (alloc st n).1 n := by
  constructor
  · left
    simp [alloc]
  · intro b m h
    left
    simpa [alloc] using h

/-- Witness for C7: a 1-byte region ending at the frontier of an arena
at 1 is disjoint from the next 4-byte reservation. -/
theorem alloc_no_overlap_witness :
    0 + 1 ≤ (Arena.mk 1).next ∧ rangesDisjoint 0 1 (alloc ⟨1⟩ 4).1 4 :=
  ⟨by norm_num, (alloc_no_overlap ⟨1⟩ 4).2 0 1 (by norm_num)⟩

/-- C8: the loop visits at most `⌈len / 4⌉` offsets (both operations are
total Lean functions, so they terminate on every input), and `alloc`
performs no iteration: it is a single pair construction. -/
theorem composite_iteration_bound (len : Nat) :
    (alphaIndices len 3).length ≤ (len + 3) / 4 ∧
      ∀ st n, alloc st n = (st.next, ⟨st.next + n⟩) := by
  constructor
  · rw [alphaIndices_length len (len - 3) 3 (by omega)]
    omega
  · intro st n
    rfl

/-- C9: on non-null disjoint buffers the value left at a visited target
offset never exceeds the byte that was there before the call: occlusion
only lowers alpha. -/
theorem composite_alpha_monotone (m : Mem) (pt po len k : Nat)
    (hpt : pt ≠ 0) (hpo : po ≠ 0)
    (hd : pt + len ≤ po ∨ po + len ≤ pt)
    (hk4 : k % 4 = 3) (hk : k < len) :
    alpha_composite_inplace m pt po len (pt + k) ≤ m (pt + k) := by
  rw [alpha_composite_nonnull m pt po len hpt hpo,
    compositeLoop_value pt po len hd (len - 3) 3 m k (by omega) (by omega) hk
      (by omega)]
  exact blendAlpha_le _ _

/-- Witness for C9: the blended alpha at offset 7 of a constant-100
target is at most 100. -/
theorem composite_alpha_monotone_witness :
    (8:Nat) ≠ 0 ∧ (200:Nat) ≠ 0 ∧ (8 + 12 ≤ 200 ∨ 200 + 12 ≤ 8) ∧
      7 % 4 = 3 ∧ 7 < 12 ∧
      alpha_composite_inplace (fun _ => 100) 8 200 12 (8 + 7) ≤ 100 :=
  ⟨by norm_num, by norm_num, by norm_num, by norm_num, by norm_num,
    composite_alpha_monotone (fun _ => 100) 8 200 12 7 (by norm_num)
      (by norm_num) (Or.inl (by norm_num)) (by norm_num) (by norm_num)⟩

/-- C10: from any arena whose frontier is past address 0, `alloc`
returns a non-null address for every size (size 0 included), so such an
address never takes the null guard of `alpha_composite_inplace`. -/
theorem alloc_nonnull (st : Arena) (n : Nat) (h : 0 < st.next) :
    (alloc st n).1 ≠ 0 ∧
    ∀ m po len, po ≠ 0 →
      alpha_composite_inplace m (alloc st n).1 po len =
        compositeLoop m (alloc st n).1 po len 3 := by
  have h1 : (alloc st n).1 = st.next := rfl
  refine ⟨by omega, ?_⟩
  intro m po len hpo
  exact alpha_composite_nonnull m _ po len (by omega) hpo

/-- Witness for C10: an arena at 1 returns a non-null address for a
size-0 reservation. -/
theorem alloc_nonnull_witness : 0 < (Arena.mk 1).next ∧ (alloc ⟨1⟩ 0).1 ≠ 0 :=
  ⟨by norm_num, (alloc_nonnull ⟨1⟩ 0 (by norm_num)).1⟩
